import Mathlib

/-!
Shallow embedding of `UserGen.py` (username wordlist generator) and
verification of its specification claims.

Conventions of the embedding:
* Python strings are Lean `String` (a wrapper around `List Char`); the
  operations used by the program (slicing, `replace(c, r, 1)`, `split`,
  `strip`, `lower`, `upper`, `capitalize`, `title`) are re-implemented
  structurally on `List Char` so that the kernel can evaluate them.
* Python sets of strings are `Finset String`.
* Fallible code (`int(...)` raising `ValueError`, `sys.exit(1)`) is
  modelled with `Except Unit`.
* The Unicode NFKD-decomposition / combining-mark-stripping step of
  `clean` is modelled as the identity, which is exact on ASCII input;
  every other step of `clean` is embedded faithfully.
-/

namespace UserGen

instance {ε α : Type} [DecidableEq ε] [DecidableEq α] : DecidableEq (Except ε α) :=
  fun x y =>
    match x, y with
    | .ok a, .ok b =>
      if h : a = b then isTrue (by rw [h])
      else isFalse (by intro hh; cases hh; exact h rfl)
    | .ok _, .error _ => isFalse (by intro h; cases h)
    | .error _, .ok _ => isFalse (by intro h; cases h)
    | .error e, .error e' =>
      if h : e = e' then isTrue (by rw [h])
      else isFalse (by intro hh; cases hh; exact h rfl)

/-- Python whitespace (the ASCII characters matched by `str.strip`,
`str.split()` and the regex class `\s`). -/
def isWsB (c : Char) : Bool :=
  c = ' ' || c = '\t' || c = '\n' || c = '\x0d' || c = '\x0b' || c = '\x0c'

/-- Lowercase ASCII letter test (regex class `a-z`). -/
def isLowerB (c : Char) : Bool := 'a' ≤ c && c ≤ 'z'

/-- ASCII digit test (regex class `0-9`). -/
def isDigitB (c : Char) : Bool := '0' ≤ c && c ≤ '9'

/-- The character class `[a-z0-9]` used by both cleanup regexes. -/
def isAlnumB (c : Char) : Bool := isLowerB c || isDigitB c

/-- Characters that may appear in a generated username:
lowercase alphanumerics plus the three separators. -/
def isUserCharB (c : Char) : Bool :=
  isAlnumB c || c = '.' || c = '_' || c = '-'

/- ### Lexicographic (code-point) order on strings, as Python compares
strings, and the sort used for the final output. -/

/-- Lexicographic code-point comparison of character lists
(the order Python's `sorted` uses on strings). -/
def lexLeB : List Char → List Char → Bool
  | [], _ => true
  | _ :: _, [] => false
  | a :: as, b :: bs =>
    if a < b then true
    else if b < a then false
    else lexLeB as bs

/-- Lexicographic code-point order on strings. -/
def strLe (a b : String) : Prop := lexLeB a.data b.data = true

instance : DecidableRel strLe := fun a b => by
  unfold strLe; infer_instance

instance : IsTotal String strLe := by
  constructor
  intro s t
  show lexLeB s.data t.data = true ∨ lexLeB t.data s.data = true
  generalize s.data = a
  generalize t.data = b
  induction a generalizing b with
  | nil => left; rfl
  | cons x xs ih =>
    cases b with
    | nil => right; rfl
    | cons y ys =>
      rcases lt_trichotomy x y with h | h | h
      · left; simp [lexLeB, h]
      · subst h
        rcases ih ys with h' | h'
        · left; simp [lexLeB, h', lt_irrefl]
        · right; simp [lexLeB, h', lt_irrefl]
      · right; simp [lexLeB, h]

instance : IsTrans String strLe := by
  constructor
  intro s t u hab hbc
  show lexLeB s.data u.data = true
  revert hab hbc
  show lexLeB s.data t.data = true → lexLeB t.data u.data = true →
    lexLeB s.data u.data = true
  generalize s.data = a
  generalize t.data = b
  generalize u.data = c
  intro hab hbc
  induction a generalizing b c with
  | nil => rfl
  | cons x xs ih =>
    cases b with
    | nil => simp [lexLeB] at hab
    | cons y ys =>
      cases c with
      | nil => simp [lexLeB] at hbc
      | cons z zs =>
        simp only [lexLeB] at hab hbc ⊢
        rcases lt_trichotomy x y with hxy | hxy | hxy
        · rcases lt_trichotomy y z with hyz | hyz | hyz
          · simp [lt_trans hxy hyz]
          · subst hyz; simp [hxy]
          · simp [hyz, not_lt_of_gt hyz] at hbc
        · subst hxy
          rcases lt_trichotomy x z with hyz | hyz | hyz
          · simp [hyz]
          · subst hyz
            simp only [lt_irrefl, if_false] at hab hbc ⊢
            exact ih _ _ hab hbc
          · simp [hyz, not_lt_of_gt hyz] at hbc
        · simp [hxy, not_lt_of_gt hxy] at hab

instance : IsAntisymm String strLe := by
  constructor
  intro s t hab hba
  apply String.ext
  revert hab hba
  show lexLeB s.data t.data = true → lexLeB t.data s.data = true →
    s.data = t.data
  generalize s.data = a
  generalize t.data = b
  intro hab hba
  induction a generalizing b with
  | nil =>
    cases b with
    | nil => rfl
    | cons y ys => simp [lexLeB] at hba
  | cons x xs ih =>
    cases b with
    | nil => simp [lexLeB] at hab
    | cons y ys =>
      simp only [lexLeB] at hab hba
      rcases lt_trichotomy x y with hxy | hxy | hxy
      · simp [hxy, not_lt_of_gt hxy] at hba
      · subst hxy
        simp only [lt_irrefl, if_false] at hab hba
        rw [ih ys hab hba]
      · simp [hxy, not_lt_of_gt hxy] at hab

/-- Sort a multiset of strings into lexicographic code-point order. -/
def sortMultiset (m : Multiset String) : List String :=
  Quotient.liftOn m (fun l => List.insertionSort strLe l)
    (fun a b h => List.eq_of_perm_of_sorted
      ((List.perm_insertionSort strLe a).trans
        (h.trans (List.perm_insertionSort strLe b).symm))
      (List.sorted_insertionSort strLe a) (List.sorted_insertionSort strLe b))

/-- The final sort of the tool (`sorted(all_usernames)`): the set of
usernames, listed in lexicographic code-point order. -/
def pySort (s : Finset String) : List String := sortMultiset s.val

/- ### Normalizer: `clean` and tokenization (`UserGen.py` lines 30-37,
215-235). -/

/-- `str.strip()`: drop leading and trailing whitespace. -/
def stripWs (l : List Char) : List Char :=
  ((l.dropWhile isWsB).reverse.dropWhile isWsB).reverse

/-- Collapse every run of whitespace to a single space
(`re.sub(r"\s+", ' ', s)`).  The boolean argument records whether the
previous character was whitespace. -/
def collapseWsGo : Bool → List Char → List Char
  | _, [] => []
  | prevWs, c :: rest =>
    if isWsB c then
      if prevWs then collapseWsGo true rest
      else ' ' :: collapseWsGo true rest
    else c :: collapseWsGo false rest

/-- `clean` (lines 30-37): strip, lowercase, drop characters outside
`[a-z0-9\s'-]`, collapse whitespace runs.  The NFKD/combining-mark step
is the identity on ASCII and is modelled as the identity. -/
def clean (s : String) : String :=
  let t := (stripWs s.data).map Char.toLower
  let t := t.filter (fun c => isAlnumB c || c = '\'' || c = '-' || isWsB c)
  ⟨collapseWsGo false t⟩

/-- `str.split()` (no separator): split on whitespace runs, discarding
empty tokens.  First argument is the (possibly empty) current token. -/
def pySplitGo : List Char → List Char → List (List Char)
  | cur, [] => if cur.isEmpty then [] else [cur]
  | cur, c :: rest =>
    if isWsB c then
      if cur.isEmpty then pySplitGo [] rest
      else cur :: pySplitGo [] rest
    else pySplitGo (cur ++ [c]) rest

/-- `cleaned.split()` (line 218): the whitespace-delimited tokens. -/
def pySplit (s : String) : List String := (pySplitGo [] s.data).map String.mk

/- ### Variant generator (`generate_variants`, lines 39-108). -/

/-- The stricter per-part cleanup `re.sub(r"[^a-z0-9]", '', x)`
(lines 41-43). -/
def subAlnum (s : String) : String := ⟨s.data.filter isAlnumB⟩

/-- Python `x[0]` on a string, as a 1-character string (total via
`take`; `generate_variants` only indexes strings its guards proved
non-empty). -/
def initialOf (s : String) : String := ⟨s.data.take 1⟩

/-- The six format categories, in the order of line 52. -/
def allFormats : List String :=
  ["standard", "dotted", "underscored", "dashed", "initial", "reversed"]

/-- Format resolution (lines 51-52): `None` or a list containing
`"all"` means every category. -/
def resolveFormats (formats : Option (List String)) : List String :=
  match formats with
  | none => allFormats
  | some fs => if "all" ∈ fs then allFormats else fs

/-- `generate_variants(first, last, middle, formats)` (lines 39-108):
the base set of username variants. -/
def generateVariants (first last middle : String)
    (formats : Option (List String)) : Finset String :=
  let f := subAlnum first
  let l := subAlnum last
  let m := subAlnum middle
  if f = "" then ∅
  else
    let fmts := resolveFormats formats
    let std : Finset String :=
      if "standard" ∈ fmts then
        {f} ∪ (if l ≠ "" then {f ++ l, l ++ f} else ∅)
          ∪ (if m ≠ "" then {f ++ m, f ++ m ++ l} else ∅)
      else ∅
    let dotted : Finset String :=
      if "dotted" ∈ fmts ∧ l ≠ "" then
        {f ++ "." ++ l, l ++ "." ++ f, initialOf f ++ "." ++ l, f ++ "." ++ initialOf l}
          ∪ (if m ≠ "" then
              {f ++ "." ++ m ++ "." ++ l,
               initialOf f ++ "." ++ initialOf m ++ "." ++ l} else ∅)
      else ∅
    let und : Finset String :=
      if "underscored" ∈ fmts ∧ l ≠ "" then
        {f ++ "_" ++ l, l ++ "_" ++ f, initialOf f ++ "_" ++ l, f ++ "_" ++ initialOf l}
          ∪ (if m ≠ "" then {f ++ "_" ++ m ++ "_" ++ l} else ∅)
      else ∅
    let dsh : Finset String :=
      if "dashed" ∈ fmts ∧ l ≠ "" then
        {f ++ "-" ++ l, l ++ "-" ++ f, initialOf f ++ "-" ++ l, f ++ "-" ++ initialOf l}
      else ∅
    let ini : Finset String :=
      if "initial" ∈ fmts ∧ l ≠ "" then
        {initialOf f ++ l, l ++ initialOf f, f ++ initialOf l, initialOf l ++ f}
          ∪ (if m ≠ "" then
              {initialOf f ++ initialOf m ++ l,
               f ++ initialOf m ++ initialOf l} else ∅)
      else ∅
    let rev : Finset String :=
      if "reversed" ∈ fmts ∧ l ≠ "" then
        {l, l ++ f, l ++ "." ++ f, l ++ "_" ++ f, l ++ "-" ++ f}
      else ∅
    std ∪ dotted ∪ und ∪ dsh ∪ ini ∪ rev

/- ### Suffix expansion (`add_suffixes`, lines 110-142) and the
numeric parsers (`parse_years` / `parse_numbers`, lines 183-213). -/

/-- Python `str(n)` for an integer (Lean's `Int` rendering agrees with
Python's decimal form, including the sign). -/
def pyStrInt (n : Int) : String := toString n

/-- Python `s[2:]`: drop the first two characters. -/
def dropTwo (s : String) : String := ⟨s.data.drop 2⟩

/-- `add_suffixes(usernames, numbers, years, common_words)`
(lines 110-142).  The Python `None` arguments and empty lists are both
falsy for the `if numbers:` style guards, so both are modelled by `[]`. -/
def addSuffixes (usernames : Finset String) (numbers years : List Int)
    (words : List String) : Finset String :=
  usernames
    ∪ (if numbers.isEmpty then ∅
       else usernames.biUnion (fun u =>
         (numbers.map (fun n =>
           [u ++ pyStrInt n, u ++ "." ++ pyStrInt n,
            u ++ "_" ++ pyStrInt n, u ++ "-" ++ pyStrInt n])).flatten.toFinset))
    ∪ (if years.isEmpty then ∅
       else usernames.biUnion (fun u =>
         (years.map (fun y =>
           [u ++ pyStrInt y, u ++ dropTwo (pyStrInt y)])).flatten.toFinset))
    ∪ (if words.isEmpty then ∅
       else usernames.biUnion (fun u =>
         (words.map (fun w =>
           [u ++ w, u ++ "." ++ w, u ++ "_" ++ w, u ++ "-" ++ w])).flatten.toFinset))

/-- Python `s.split(sep)` for a single-character separator: splits at
every occurrence, keeping empty pieces (`"".split('-') == ['']`). -/
def splitOnChar (c : Char) : List Char → List (List Char)
  | [] => [[]]
  | x :: xs =>
    if x = c then [] :: splitOnChar c xs
    else
      match splitOnChar c xs with
      | [] => [[x]]
      | h :: t => (x :: h) :: t

/-- Decimal value of a digit list (most significant first). -/
def digitsVal (l : List Char) : Nat :=
  l.foldl (fun acc c => acc * 10 + (c.toNat - '0'.toNat)) 0

/-- Python `int(s)`: strip whitespace, optional single sign, then a
non-empty run of decimal digits; anything else raises `ValueError`
(`none`).  (Underscore digit-grouping is not modelled.) -/
def pyParseInt (s : String) : Option Int :=
  let t := stripWs s.data
  match t with
  | '-' :: rest =>
    if rest ≠ [] ∧ rest.all isDigitB then some (-(digitsVal rest : Int)) else none
  | '+' :: rest =>
    if rest ≠ [] ∧ rest.all isDigitB then some (digitsVal rest : Int) else none
  | _ =>
    if t ≠ [] ∧ t.all isDigitB then some (digitsVal t : Int) else none

/-- Python `range(a, b)` as a list. -/
def pyRange (a b : Int) : List Int :=
  (List.range (b - a).toNat).map (fun i => a + (i : Int))

/-- `parse_numbers(num_string)` (lines 199-213).  A `ValueError` from
`int(...)`, or a range with more or fewer than two `-`-separated
pieces (a failed tuple unpacking), is `Except.error`. -/
def parseNumbers (numString : String) : Except Unit (List Int) :=
  if numString.data.isEmpty then .ok []
  else if numString.data.contains '-' then
    match splitOnChar '-' numString.data with
    | [a, b] =>
      match pyParseInt ⟨a⟩, pyParseInt ⟨b⟩ with
      | some x, some y => .ok (pyRange x (y + 1))
      | _, _ => .error ()
    | _ => .error ()
  else if numString.data.contains ',' then
    (splitOnChar ',' numString.data).mapM
      (fun p => match pyParseInt ⟨stripWs p⟩ with
        | some x => Except.ok x
        | none => Except.error ())
  else
    match pyParseInt numString with
    | some x => .ok [x]
    | none => .error ()

/-- `parse_years(year_string)` (lines 183-197); the body is identical
to `parse_numbers`. -/
def parseYears (yearString : String) : Except Unit (List Int) :=
  if yearString.data.isEmpty then .ok []
  else if yearString.data.contains '-' then
    match splitOnChar '-' yearString.data with
    | [a, b] =>
      match pyParseInt ⟨a⟩, pyParseInt ⟨b⟩ with
      | some x, some y => .ok (pyRange x (y + 1))
      | _, _ => .error ()
    | _ => .error ()
  else if yearString.data.contains ',' then
    (splitOnChar ',' yearString.data).mapM
      (fun p => match pyParseInt ⟨stripWs p⟩ with
        | some x => Except.ok x
        | none => Except.error ())
  else
    match pyParseInt yearString with
    | some x => .ok [x]
    | none => .error ()

/- ### Leet pass (`add_l33t_speak`, lines 144-165). -/

/-- The fixed substitution table (lines 146-155), in source order. -/
def l33tMap : List (Char × List Char) :=
  [('a', ['4', '@']), ('e', ['3']), ('i', ['1', '!']), ('o', ['0']),
   ('s', ['5', '$']), ('t', ['7']), ('l', ['1']), ('g', ['9'])]

/-- Python `s.replace(c, r, 1)` for single characters: replace only the
first occurrence of `c` by `r`. -/
def replaceFirstL (l : List Char) (c r : Char) : List Char :=
  match l with
  | [] => []
  | x :: xs => if x = c then r :: xs else x :: replaceFirstL xs c r

/-- The leet variants of one username, over a given table: for each
table letter present in the username and each of its replacements, the
string with only the first occurrence substituted. -/
def l33tVariantsOver (entries : List (Char × List Char)) (u : String) :
    List String :=
  entries.foldr
    (fun p acc =>
      if u.data.contains p.1 then
        p.2.map (fun r => (⟨replaceFirstL u.data p.1 r⟩ : String)) ++ acc
      else acc) []

/-- `add_l33t_speak(usernames)` (lines 144-165): the set of
single-substitution leet variants (source strings are NOT included). -/
def addL33tSpeak (usernames : Finset String) : Finset String :=
  usernames.biUnion (fun u => (l33tVariantsOver l33tMap u).toFinset)

/- ### Capitalization pass (`add_caps_variations`, lines 167-181). -/

/-- Python `s.upper()` (ASCII). -/
def pyUpper (s : String) : String := ⟨s.data.map Char.toUpper⟩

/-- Python `s.capitalize()` (ASCII): first character uppercased, the
rest lowercased. -/
def pyCapitalize (s : String) : String :=
  match s.data with
  | [] => ""
  | c :: rest => ⟨Char.toUpper c :: rest.map Char.toLower⟩

/-- One step of Python `s.title()` (ASCII): a letter is uppercased when
the previous character was not a letter, lowercased otherwise. -/
def pyTitleGo : Bool → List Char → List Char
  | _, [] => []
  | prevCased, c :: rest =>
    (if c.isAlpha then (if prevCased then c.toLower else c.toUpper) else c)
      :: pyTitleGo c.isAlpha rest

/-- Python `s.title()` (ASCII). -/
def pyTitle (s : String) : String := ⟨pyTitleGo false s.data⟩

/-- `add_caps_variations(usernames, caps_type)` (lines 167-181): the
new capitalized forms only (source strings are NOT included). -/
def addCapsVariations (usernames : Finset String) (capsType : String) :
    Finset String :=
  usernames.biUnion (fun u =>
    if capsType = "all" then {pyUpper u, pyCapitalize u, pyTitle u}
    else if capsType = "first" then {pyCapitalize u}
    else if capsType = "upper" then {pyUpper u}
    else ∅)

/- ### The three expander passes as set transformers, in the shape
`process_name` applies them (lines 240-253): each pass receives the
full accumulated set and its additions are merged in. -/

/-- The suffix pass: `usernames = add_suffixes(usernames, ...)`. -/
def suffixPass (numbers years : List Int) (words : List String)
    (s : Finset String) : Finset String :=
  addSuffixes s numbers years words

/-- The leet pass: `usernames.update(add_l33t_speak(usernames))`. -/
def leetPass (s : Finset String) : Finset String := s ∪ addL33tSpeak s

/-- The caps pass: `usernames.update(add_caps_variations(usernames, caps))`. -/
def capsPass (capsType : String) (s : Finset String) : Finset String :=
  s ∪ addCapsVariations s capsType

/- ### Per-name processing (`process_name`, lines 215-255) and the
driver (`main`, lines 257-376). -/

/-- The relevant command-line configuration (argparse `args`). -/
structure Args where
  format : Option (List String)
  numbers : Option String
  years : Option String
  words : Option String
  leet : Bool
  caps : String
  sortFlag : Bool

/-- Python truthiness of an optional string (`None` and `""` are
falsy). -/
def optTruthy (o : Option String) : Bool :=
  match o with
  | none => false
  | some s => !s.data.isEmpty

/-- `process_name(name, args)` (lines 215-255).  An uncaught
`ValueError` from the numeric parsers is `Except.error`. -/
def processName (name : String) (args : Args) : Except Unit (Finset String) := do
  let cleaned := clean name
  let parts := pySplit cleaned
  match parts with
  | [] => return ∅
  | p :: rest =>
    let first := p
    let middle := if rest.length ≥ 2 then rest.headD "" else ""
    let last := if rest.isEmpty then "" else (p :: rest).getLastD ""
    let base := generateVariants first last middle args.format
    let withSuffixes ←
      if optTruthy args.numbers || optTruthy args.years || optTruthy args.words then do
        let numbers ←
          if optTruthy args.numbers then parseNumbers (args.numbers.getD "")
          else pure []
        let years ←
          if optTruthy args.years then parseYears (args.years.getD "")
          else pure []
        let words :=
          if optTruthy args.words then
            (splitOnChar ',' (args.words.getD "").data).map String.mk
          else []
        pure (addSuffixes base numbers years words)
      else pure base
    let withLeet := if args.leet then withSuffixes ∪ addL33tSpeak withSuffixes
      else withSuffixes
    let withCaps := if args.caps ≠ "none" then
        withLeet ∪ addCapsVariations withLeet args.caps
      else withLeet
    return withCaps

/-- The aggregation tail of `main` (lines 347-356): union of the
per-name sets; sorted in both branches of `if args.sort`. -/
def aggregate (sets : List (Finset String)) (sortFlag : Bool) : List String :=
  let all := sets.foldl (· ∪ ·) ∅
  if sortFlag then pySort all else pySort all

/-- `main` restricted to the core pipeline (lines 339-356): fatal error
when the collected name list is empty, then per-name processing (an
uncaught parse error aborts the run with no output), then the
aggregation tail. -/
def mainE (names : List String) (args : Args) : Except Unit (List String) := do
  if names.isEmpty then throw ()
  let sets ← names.mapM (fun n => processName n args)
  return aggregate sets args.sortFlag

/-- Strings all of whose characters are lowercase alphanumerics: the
`NameParts` field invariant after normalization. -/
def AlnumStr (s : String) : Prop := ∀ c ∈ s.data, isAlnumB c = true

/-- Characters legal in a generated base variant. -/
def OkChars (s : String) : Prop := ∀ c ∈ s.data, isUserCharB c = true

/-- A non-empty string of legal username characters. -/
def GoodStr (s : String) : Prop := s ≠ "" ∧ OkChars s

instance (s : String) : Decidable (AlnumStr s) := by
  unfold AlnumStr
  infer_instance

instance (s : String) : Decidable (OkChars s) := by
  unfold OkChars
  infer_instance

/- ### Helper lemmas. -/

theorem sortMultiset_sorted (m : Multiset String) :
    List.Sorted strLe (sortMultiset m) := by
  induction m using Quotient.inductionOn with
  | h l => exact List.sorted_insertionSort strLe l

theorem sortMultiset_coe (m : Multiset String) :
    Multiset.ofList (sortMultiset m) = m := by
  induction m using Quotient.inductionOn with
  | h l => exact Quotient.sound (List.perm_insertionSort strLe l)

theorem pySort_sorted (s : Finset String) : List.Sorted strLe (pySort s) :=
  sortMultiset_sorted s.val

theorem pySort_nodup (s : Finset String) : (pySort s).Nodup := by
  have : Multiset.Nodup (Multiset.ofList (pySort s)) := by
    rw [pySort, sortMultiset_coe]; exact s.nodup
  exact this

theorem mem_pySort (s : Finset String) (u : String) : u ∈ pySort s ↔ u ∈ s := by
  constructor
  · intro hu
    have h : u ∈ Multiset.ofList (pySort s) := by exact_mod_cast hu
    rw [pySort, sortMultiset_coe] at h
    exact h
  · intro hu
    have h : u ∈ Multiset.ofList (pySort s) := by
      rw [pySort, sortMultiset_coe]; exact hu
    exact_mod_cast h

theorem str_ne_empty_iff (s : String) : s ≠ "" ↔ s.data ≠ [] := by
  constructor
  · intro h hd
    exact h (String.ext hd)
  · intro h he
    apply h
    rw [he]

theorem subAlnum_eq_self {s : String} (h : AlnumStr s) : subAlnum s = s :=
  String.ext (List.filter_eq_self.mpr h)

theorem subAlnum_alnum (s : String) : AlnumStr (subAlnum s) := by
  intro c hc
  exact (List.mem_filter.mp hc).2

theorem initialOf_alnum {s : String} (h : AlnumStr s) : AlnumStr (initialOf s) := by
  intro c hc
  exact h c (List.mem_of_mem_take hc)

theorem initialOf_ne_empty {s : String} (h : s ≠ "") : initialOf s ≠ "" := by
  rw [str_ne_empty_iff] at h ⊢
  cases hd : s.data with
  | nil => exact absurd hd h
  | cons c cs => simp [initialOf, hd]

theorem okChars_of_alnum {s : String} (h : AlnumStr s) : OkChars s := by
  intro c hc
  have := h c hc
  simp [isUserCharB, this]

theorem okChars_append {a b : String} (ha : OkChars a) (hb : OkChars b) :
    OkChars (a ++ b) := by
  intro c hc
  rw [String.data_append] at hc
  rcases List.mem_append.mp hc with h | h
  · exact ha c h
  · exact hb c h

theorem good_app {a b : String} (ha : GoodStr a) (hb : OkChars b) :
    GoodStr (a ++ b) := by
  refine ⟨?_, okChars_append ha.2 hb⟩
  rw [str_ne_empty_iff, String.data_append]
  have := (str_ne_empty_iff a).mp ha.1
  simp [this]

theorem good_of_alnum {s : String} (ha : AlnumStr s) (hne : s ≠ "") : GoodStr s :=
  ⟨hne, okChars_of_alnum ha⟩

theorem good_initialOf {s : String} (ha : AlnumStr s) (hne : s ≠ "") :
    GoodStr (initialOf s) :=
  ⟨initialOf_ne_empty hne, okChars_of_alnum (initialOf_alnum ha)⟩

/-- Count of a character in a string. -/
theorem count_append (c : Char) (a b : String) :
    (a ++ b).data.count c = a.data.count c + b.data.count c := by
  rw [String.data_append, List.count_append]

theorem count_eq_zero_of_alnum {s : String} (h : AlnumStr s) {c : Char}
    (hc : isAlnumB c = false) : s.data.count c = 0 := by
  rw [List.count_eq_zero]
  intro hm
  rw [h c hm] at hc
  cases hc

theorem length_append (a b : String) : (a ++ b).length = a.length + b.length := by
  show (a ++ b).data.length = a.data.length + b.data.length
  rw [String.data_append, List.length_append]

theorem length_initialOf {s : String} (h : s ≠ "") : (initialOf s).length = 1 := by
  show (s.data.take 1).length = 1
  rw [List.length_take]
  have := (str_ne_empty_iff s).mp h
  cases hd : s.data with
  | nil => exact absurd hd this
  | cons c cs => simp [hd]

theorem one_le_length {s : String} (h : s ≠ "") : 1 ≤ s.length := by
  have := (str_ne_empty_iff s).mp h
  cases hd : s.data with
  | nil => exact absurd hd this
  | cons c cs =>
    show 1 ≤ s.data.length
    rw [hd]
    simp

theorem mem_ite_empty_right {P : Prop} [Decidable P] {A : Finset String}
    {v : String} (h : v ∈ if P then A else ∅) : P ∧ v ∈ A := by
  by_cases hP : P
  · exact ⟨hP, by rwa [if_pos hP] at h⟩
  · rw [if_neg hP] at h
    cases h

theorem splitOnChar_not_mem {c : Char} {l : List Char} (h : c ∉ l) :
    splitOnChar c l = [l] := by
  induction l with
  | nil => rfl
  | cons x xs ih =>
    have hx : ¬ x = c := fun he => h (he ▸ List.mem_cons_self x xs)
    have h' : c ∉ xs := fun hm => h (List.mem_cons_of_mem _ hm)
    simp [splitOnChar, hx, ih h']

theorem splitOnChar_append {c : Char} {l₁ l₂ : List Char} (h : c ∉ l₁) :
    splitOnChar c (l₁ ++ c :: l₂) = l₁ :: splitOnChar c l₂ := by
  induction l₁ with
  | nil => simp [splitOnChar]
  | cons x xs ih =>
    have hx : ¬ x = c := fun he => h (he ▸ List.mem_cons_self x xs)
    have h' : c ∉ xs := fun hm => h (List.mem_cons_of_mem _ hm)
    simp only [List.cons_append, splitOnChar, hx, if_false, List.append_eq, ih h']

theorem foldl_union_acc (u : String) (ss : List (Finset String)) :
    ∀ acc : Finset String,
      (u ∈ ss.foldl (· ∪ ·) acc ↔ u ∈ acc ∨ ∃ t ∈ ss, u ∈ t) := by
  induction ss with
  | nil => intro acc; simp
  | cons s ss ih =>
    intro acc
    rw [List.foldl_cons, ih (acc ∪ s)]
    simp [Finset.mem_union, or_assoc]

/- ### Claim C3 -/

/-- C3: the claim says the year suffix pass appends the last two
characters of `str(y)`; the code computes `str(y)[2:]`, which drops the
first two characters instead.  On the year 123 with base `{"john"}` the
code adds `"john3"`, not the `"john23"` the claim requires, so the two
agree only for four-digit years.  The code's own comment on line 131
(`# Last 2 digits`) documents the claimed behaviour, so this is a slip
in the code. -/
theorem yearSuffix_drops_leading_digits :
    addSuffixes {"john"} [] [123] [] = {"john", "john123", "john3"} ∧
    "john23" ∉ addSuffixes {"john"} [] [123] [] ∧
    dropTwo (pyStrInt 123) = "3" := by decide

/- ### Claim C1 -/

/-- C1 counterexample: with the `underscored` category enabled (alone,
or via the all-categories default) on first "john", middle "mary",
last "doe", the generator does not produce `f[0]+'_'+m[0]+'_'+l`
(`"j_m_doe"`), though it does produce `f+'_'+m+'_'+l`; the
initials-with-middle pair exists only in the `dotted` category
(line 81 of the source has no counterpart to line 72). -/
theorem underscored_initials_missing :
    "john_mary_doe" ∈ generateVariants "john" "doe" "mary" (some ["underscored"]) ∧
    "j_m_doe" ∉ generateVariants "john" "doe" "mary" (some ["underscored"]) ∧
    "j_m_doe" ∉ generateVariants "john" "doe" "mary" none ∧
    "j.m.doe" ∈ generateVariants "john" "doe" "mary" (some ["dotted"]) := by decide

/- ### Claim C2 -/

/-- C2 counterexample: the bare first name is added only by the
`standard` category, so for the selection `["dotted"]` with no last
name the generator returns the empty set even though the cleaned first
name `"john"` is non-empty, and it does not contain `"john"`. -/
theorem bare_first_requires_standard :
    generateVariants "john" "" "" (some ["dotted"]) = ∅ ∧
    "john" ∉ generateVariants "john" "" "" (some ["dotted"]) ∧
    subAlnum "john" ≠ "" := by decide

/- ### Claim C4 -/

/-- C4 counterexample: the suffix pass (word suffix `"a"`) and the leet
pass do not commute on the base `{"x"}`: suffix-then-leet contains
`"x4"` (leet applied to the appended `"xa"`), while leet-then-suffix
does not (leet finds nothing to substitute in `"x"`). -/
theorem suffix_leet_passes_noncommutative :
    leetPass (suffixPass [] [] ["a"] {"x"}) ≠ suffixPass [] [] ["a"] (leetPass {"x"}) ∧
    "x4" ∈ leetPass (suffixPass [] [] ["a"] {"x"}) ∧
    "x4" ∉ suffixPass [] [] ["a"] (leetPass {"x"}) := by decide

/- ### Claim C5 -/

/-- C5 counterexample: with the single name `"!!!"` (which cleans to
zero tokens) and the malformed numbers specification `"x"` — or,
equally, the malformed years specification `"x"` — the run succeeds
with empty output: the malformed specification is never rejected at
all, because `process_name` returns before parsing when a name yields
no tokens, and parsing only ever happens inside `process_name`, after
base-variant generation. -/
theorem malformed_spec_not_rejected_at_parse_time :
    parseNumbers "x" = .error () ∧
    mainE ["!!!"] ⟨none, some "x", none, none, false, "none", false⟩ = .ok [] ∧
    parseYears "x" = .error () ∧
    mainE ["!!!"] ⟨none, none, some "x", none, false, "none", false⟩ = .ok [] := by
  decide

/- ### Claim C6 -/

/-- C6 counterexample: the input-error check (line 339) only tests
whether the raw name list is empty.  The whitespace-only name `""` and
the name `"!!!"` both normalize to zero usable tokens, yet each run
succeeds with empty aggregated output instead of reporting the input
error. -/
theorem degenerate_names_silently_succeed :
    mainE [""] ⟨none, none, none, none, false, "none", false⟩ = .ok [] ∧
    mainE ["!!!"] ⟨none, none, none, none, false, "none", false⟩ = .ok [] ∧
    pySplit (clean "") = [] ∧ pySplit (clean "!!!") = [] := by decide

/- ### Claim C9 -/

/-- C9: a range specification `"A-B"` with `A > B` (plain decimal
integers, so neither side contains a `-`) parses to the empty list in
both `parse_numbers` and `parse_years` — `list(range(A, B+1))` is empty
— with no error raised, and the suffix pass given empty lists adds no
members. -/
theorem inverted_range_parses_empty (a b : String) (va vb : Int)
    (ha : '-' ∉ a.data) (hb : '-' ∉ b.data)
    (hpa : pyParseInt a = some va) (hpb : pyParseInt b = some vb)
    (hgt : vb < va) :
    parseNumbers (a ++ "-" ++ b) = .ok [] ∧
    parseYears (a ++ "-" ++ b) = .ok [] ∧
    ∀ S : Finset String, addSuffixes S [] [] [] = S := by
  have hdata : (a ++ "-" ++ b).data = a.data ++ '-' :: b.data := by
    rw [String.data_append, String.data_append]
    simp
  have hsplit : splitOnChar '-' (a ++ "-" ++ b).data = [a.data, b.data] := by
    rw [hdata, splitOnChar_append ha, splitOnChar_not_mem hb]
  have hne : ((a ++ "-" ++ b).data.isEmpty = true) = False := by
    simp [hdata]
  have hcont : (a ++ "-" ++ b).data.contains '-' = true := by
    rw [hdata]
    have : '-' ∈ a.data ++ '-' :: b.data := by simp
    exact List.elem_eq_true_of_mem this
  have hpa' : pyParseInt ⟨a.data⟩ = some va := hpa
  have hpb' : pyParseInt ⟨b.data⟩ = some vb := hpb
  have hrange : pyRange va (vb + 1) = [] := by
    unfold pyRange
    have hle : vb + 1 - va ≤ 0 := by omega
    rw [Int.toNat_of_nonpos hle]
    rfl
  refine ⟨?_, ?_, ?_⟩
  · rw [parseNumbers, if_neg (by simp [hne]), if_pos hcont, hsplit]
    simp [hpa', hpb', hrange]
  · rw [parseYears, if_neg (by simp [hne]), if_pos hcont, hsplit]
    simp [hpa', hpb', hrange]
  · intro S
    simp [addSuffixes]

/-- C9 witness: the inverted range `"5-3"`. -/
theorem inverted_range_witness :
    parseNumbers ("5" ++ "-" ++ "3") = .ok [] ∧
    parseYears ("5" ++ "-" ++ "3") = .ok [] ∧
    addSuffixes {"john"} [] [] [] = {"john"} := by
  have h := inverted_range_parses_empty "5" "3" 5 3 (by decide) (by decide)
    (by decide) (by decide) (by decide)
  exact ⟨h.1, h.2.1, h.2.2 {"john"}⟩

/- ### Claim C7 -/

/-- C7: for every sequence of per-name sets and either value of the
sort flag, the aggregated output is the same (the flag is ignored), it
is sorted in lexicographic code-point order, duplicate-free, and its
members are exactly the union of the input sets. -/
theorem aggregate_sorted_dedup_union (sets : List (Finset String)) (flag : Bool) :
    aggregate sets flag = aggregate sets true ∧
    List.Sorted strLe (aggregate sets flag) ∧
    (aggregate sets flag).Nodup ∧
    ∀ u : String, u ∈ aggregate sets flag ↔ ∃ t ∈ sets, u ∈ t := by
  have hagg : ∀ c : Bool, aggregate sets c = pySort (sets.foldl (· ∪ ·) ∅) := by
    intro c
    cases c <;> rfl
  refine ⟨by rw [hagg, hagg], ?_, ?_, ?_⟩
  · rw [hagg]
    exact pySort_sorted _
  · rw [hagg]
    exact pySort_nodup _
  · intro u
    rw [hagg, mem_pySort, foldl_union_acc]
    simp

/- ### Claim C4 (amended) -/

/-- C4 amended: the three expander passes are applied in the fixed
order suffix, leet, caps, each operating on the full accumulated set so
far and merging its additions, so the accumulated set only ever grows
and the originals (in particular the whole base set) are retained
through all three passes.  (They do not commute in general; see the
counterexample.) -/
theorem passes_accumulate_retaining_base (S : Finset String)
    (numbers years : List Int) (words : List String) (capsType : String) :
    S ⊆ suffixPass numbers years words S ∧
    suffixPass numbers years words S ⊆ leetPass (suffixPass numbers years words S) ∧
    leetPass (suffixPass numbers years words S) ⊆
      capsPass capsType (leetPass (suffixPass numbers years words S)) ∧
    S ⊆ capsPass capsType (leetPass (suffixPass numbers years words S)) := by
  have h1 : S ⊆ suffixPass numbers years words S := by
    intro x hx
    unfold suffixPass addSuffixes
    apply Finset.mem_union_left
    apply Finset.mem_union_left
    apply Finset.mem_union_left
    exact hx
  have h2 : ∀ T : Finset String, T ⊆ leetPass T := by
    intro T x hx
    exact Finset.mem_union_left _ hx
  have h3 : ∀ (T : Finset String) (c : String), T ⊆ capsPass c T := by
    intro T c x hx
    exact Finset.mem_union_left _ hx
  exact ⟨h1, h2 _, h3 _ _, fun x hx => h3 _ _ (h2 _ (h1 hx))⟩

/-- C4 amended witness: the base `{"x"}` survives all three passes. -/
theorem passes_accumulate_witness :
    ({"x"} : Finset String) ⊆
      capsPass "all" (leetPass (suffixPass [] [] ["a"] {"x"})) :=
  (passes_accumulate_retaining_base {"x"} [] [] ["a"] "all").2.2.2

/- ### Claim C2 (amended) -/

/-- C2 amended: the generator returns the empty set whenever the
cleaned first name is empty; and whenever the cleaned first name is
non-empty AND the resolved format selection enables the `standard`
category (explicitly, via the `all` wildcard, or by being unspecified),
the result contains the bare cleaned first name and is non-empty.  (For
selections without `standard` the bare first name is not guaranteed and
the result may be empty even with a non-empty first name.) -/
theorem generate_nonempty_with_standard (first last middle : String)
    (fmts : Option (List String)) :
    (subAlnum first = "" → generateVariants first last middle fmts = ∅) ∧
    (subAlnum first ≠ "" → "standard" ∈ resolveFormats fmts →
      subAlnum first ∈ generateVariants first last middle fmts ∧
      (generateVariants first last middle fmts).Nonempty) := by
  constructor
  · intro h
    simp [generateVariants, h]
  · intro hne hstd
    have hmem : subAlnum first ∈ generateVariants first last middle fmts := by
      simp only [generateVariants]
      rw [if_neg hne]
      apply Finset.mem_union_left
      apply Finset.mem_union_left
      apply Finset.mem_union_left
      apply Finset.mem_union_left
      apply Finset.mem_union_left
      rw [if_pos hstd]
      apply Finset.mem_union_left
      apply Finset.mem_union_left
      exact Finset.mem_singleton_self _
    exact ⟨hmem, ⟨_, hmem⟩⟩

/-- C2 amended witness: "john" with last name "doe" and the default
(unspecified) format selection. -/
theorem generate_nonempty_witness :
    subAlnum "john" ∈ generateVariants "john" "doe" "" none ∧
    (generateVariants "john" "doe" "" none).Nonempty :=
  (generate_nonempty_with_standard "john" "doe" "" none).2 (by decide) (by decide)

/- ### Claims C5 / C6: helper lemmas about the pipeline. -/

theorem except_bind_error {α β : Type} (f : α → Except Unit β) :
    ((Except.error () : Except Unit α) >>= f) = Except.error () := rfl

theorem except_bind_ok {α β : Type} (a : α) (f : α → Except Unit β) :
    ((Except.ok a : Except Unit α) >>= f) = f a := rfl

theorem except_map_error {α β : Type} (f : α → β) :
    (f <$> (Except.error () : Except Unit α)) = Except.error () := rfl

theorem except_map_ok {α β : Type} (f : α → β) (a : α) :
    (f <$> (Except.ok a : Except Unit α)) = Except.ok (f a) := rfl

theorem processName_of_no_tokens {n : String} (args : Args)
    (h : pySplit (clean n) = []) : processName n args = .ok ∅ := by
  simp only [processName, h]
  rfl

theorem optTruthy_some {s : String} (h : s ≠ "") :
    optTruthy (some s) = true := by
  have := (str_ne_empty_iff s).mp h
  simp [optTruthy, List.isEmpty_iff, this]

theorem processName_numbers_error (n : String) (args : Args) (s : String)
    (hn : args.numbers = some s) (hs : s ≠ "")
    (hp : parseNumbers s = .error ())
    (ht : pySplit (clean n) ≠ []) : processName n args = .error () := by
  rcases hsp : pySplit (clean n) with _ | ⟨p, rest⟩
  · exact absurd hsp ht
  · have htr : optTruthy (some s) = true := optTruthy_some hs
    simp [processName, hsp, hn, htr, hp, except_bind_error]

theorem processName_years_error (n : String) (args : Args) (s : String)
    (hy : args.years = some s) (hs : s ≠ "")
    (hp : parseYears s = .error ())
    (hnum : optTruthy args.numbers = false ∨
      ∃ t v, args.numbers = some t ∧ parseNumbers t = .ok v)
    (ht : pySplit (clean n) ≠ []) : processName n args = .error () := by
  rcases hsp : pySplit (clean n) with _ | ⟨p, rest⟩
  · exact absurd hsp ht
  · have htr : optTruthy (some s) = true := optTruthy_some hs
    by_cases hnt : optTruthy args.numbers = true
    · rcases hnum with hnf | ⟨t, v, htn, hok⟩
      · rw [hnt] at hnf
        cases hnf
      · simp [processName, hsp, hy, htr, hnt, htn, hok, hp,
          except_bind_ok, except_bind_error]
    · have hnf : optTruthy args.numbers = false := by
        cases h : optTruthy args.numbers
        · rfl
        · exact absurd h hnt
      simp [processName, hsp, hy, htr, hnf, hp,
        except_bind_ok, except_bind_error]

theorem mapM_processName_error (f : String → Except Unit (Finset String))
    (names : List String) (hex : ∃ n ∈ names, f n = .error ()) :
    names.mapM f = .error () := by
  induction names with
  | nil =>
    rcases hex with ⟨n, hn, _⟩
    cases hn
  | cons m ms ih =>
    rw [List.mapM_cons]
    cases hm : f m with
    | error e =>
      cases e
      rfl
    | ok v =>
      rcases hex with ⟨n, hn, hne⟩
      rcases List.mem_cons.mp hn with rfl | hn'
      · rw [hm] at hne
        cases hne
      · have htail : ms.mapM f = Except.error () := ih ⟨n, hn', hne⟩
        simp only [htail]
        rfl

theorem mapM_processName_empty (f : String → Except Unit (Finset String))
    (names : List String) (hall : ∀ n ∈ names, f n = .ok ∅) :
    names.mapM f = .ok (names.map (fun _ => ∅)) := by
  induction names with
  | nil => rfl
  | cons m ms ih =>
    rw [List.mapM_cons]
    simp only [hall m (List.mem_cons_self m ms),
      ih (fun n hn => hall n (List.mem_cons_of_mem _ hn)), except_bind_ok]
    rfl

theorem foldl_union_acc_all_empty (l : List (Finset String)) :
    ∀ acc : Finset String, (∀ t ∈ l, t = (∅ : Finset String)) →
      l.foldl (· ∪ ·) acc = acc := by
  induction l with
  | nil =>
    intro acc _
    rfl
  | cons s ss ih =>
    intro acc hall
    rw [List.foldl_cons, hall s (List.mem_cons_self s ss), Finset.union_empty]
    exact ih acc (fun t ht => hall t (List.mem_cons_of_mem _ ht))

/- ### Claim C5 (amended) -/

/-- C5 amended: a malformed numbers or years specification is detected
lazily, inside `process_name`, and only for names that normalize to at
least one token (generation work for earlier degenerate names, and the
base variant generation of the failing name itself, happen first).
When some name does normalize to a token, the run aborts with a fatal
error and produces no output — for a malformed numbers specification
unconditionally, and for a malformed years specification whenever the
numbers specification does not itself abort first (it is absent, empty,
or parses).  (When no name yields a token, the malformed specification
is never rejected; see the counterexample.) -/
theorem malformed_spec_fatal_when_token (names : List String)
    (args : Args) (s : String)
    (hbad : (args.numbers = some s ∧ s ≠ "" ∧ parseNumbers s = .error ()) ∨
      ((optTruthy args.numbers = false ∨
         ∃ t v, args.numbers = some t ∧ parseNumbers t = .ok v) ∧
        args.years = some s ∧ s ≠ "" ∧ parseYears s = .error ()))
    (hx : ∃ n ∈ names, pySplit (clean n) ≠ []) :
    mainE names args = .error () := by
  have hne : names.isEmpty = false := by
    rcases hx with ⟨n, hn', _⟩
    cases names with
    | nil => cases hn'
    | cons m ms => rfl
  have herr : names.mapM (fun n => processName n args) = .error () := by
    apply mapM_processName_error
    rcases hx with ⟨n, hmem, hnt⟩
    refine ⟨n, hmem, ?_⟩
    rcases hbad with ⟨hn, hs, hp⟩ | ⟨hnum, hy, hs, hp⟩
    · exact processName_numbers_error n args s hn hs hp hnt
    · exact processName_years_error n args s hy hs hp hnum hnt
  simp only [mainE, hne, Bool.false_eq_true, if_false]
  simp only [herr]
  rfl

/-- C5 amended witness: name "Ann Lee", once with the malformed
numbers spec "x" and once with the malformed years spec "x". -/
theorem malformed_spec_fatal_witness :
    mainE ["Ann Lee"] ⟨none, some "x", none, none, false, "none", false⟩ =
      .error () ∧
    mainE ["Ann Lee"] ⟨none, none, some "x", none, false, "none", false⟩ =
      .error () :=
  ⟨malformed_spec_fatal_when_token ["Ann Lee"]
      ⟨none, some "x", none, none, false, "none", false⟩ "x"
      (Or.inl ⟨rfl, by decide, by decide⟩) ⟨"Ann Lee", by simp, by decide⟩,
   malformed_spec_fatal_when_token ["Ann Lee"]
      ⟨none, none, some "x", none, false, "none", false⟩ "x"
      (Or.inr ⟨Or.inl rfl, rfl, by decide, by decide⟩)
      ⟨"Ann Lee", by simp, by decide⟩⟩

/- ### Claim C6 (amended) -/

/-- C6 amended: the input-error condition is raised exactly when the
raw name list handed to the pipeline is empty.  A non-empty list of
names that all normalize to zero usable tokens is NOT an error: each
such name silently contributes nothing and the run succeeds with empty
aggregated output. -/
theorem input_error_iff_raw_list_empty (names : List String) (args : Args) :
    (names = [] → mainE names args = .error ()) ∧
    (names ≠ [] → (∀ n ∈ names, pySplit (clean n) = []) →
      mainE names args = .ok []) := by
  constructor
  · intro h
    subst h
    rfl
  · intro hne hall
    have hempty : names.isEmpty = false := by
      cases names with
      | nil => exact absurd rfl hne
      | cons m ms => rfl
    have hmap : names.mapM (fun n => processName n args) =
        .ok (names.map (fun _ => ∅)) :=
      mapM_processName_empty _ names
        (fun n hn => processName_of_no_tokens args (hall n hn))
    have hfold : (names.map (fun _ => (∅ : Finset String))).foldl (· ∪ ·) ∅ = ∅ :=
      foldl_union_acc_all_empty _ ∅ (by simp)
    have hsortE : pySort ∅ = [] := rfl
    have hagg : aggregate (names.map (fun _ => ∅)) args.sortFlag = [] := by
      unfold aggregate
      rw [hfold]
      cases args.sortFlag <;> exact hsortE
    simp only [mainE, hempty, Bool.false_eq_true, if_false]
    simp only [hmap]
    exact congrArg Except.ok hagg

/-- C6 amended witness: the two degenerate names `" "` and `"!!!"`. -/
theorem input_error_iff_witness :
    mainE [" ", "!!!"] ⟨none, none, none, none, false, "none", true⟩ = .ok [] :=
  (input_error_iff_raw_list_empty [" ", "!!!"]
    ⟨none, none, none, none, false, "none", true⟩).2 (by decide) (by decide)

/- ### Claim C1 (amended): shape lemmas for single-category selections. -/

theorem gv_dotted_shape (f m l : String) (hfA : AlnumStr f) (hmA : AlnumStr m)
    (hlA : AlnumStr l) (hf : f ≠ "") (hm : m ≠ "") (hl : l ≠ "") :
    generateVariants f l m (some ["dotted"]) =
      {f ++ "." ++ l, l ++ "." ++ f, initialOf f ++ "." ++ l,
       f ++ "." ++ initialOf l, f ++ "." ++ m ++ "." ++ l,
       initialOf f ++ "." ++ initialOf m ++ "." ++ l} := by
  apply Finset.ext
  intro x
  simp only [generateVariants, subAlnum_eq_self hfA, subAlnum_eq_self hmA,
    subAlnum_eq_self hlA]
  rw [if_neg hf]
  simp [resolveFormats, hm, hl]
  tauto

theorem gv_underscored_shape (f m l : String) (hfA : AlnumStr f)
    (hmA : AlnumStr m) (hlA : AlnumStr l) (hf : f ≠ "") (hm : m ≠ "")
    (hl : l ≠ "") :
    generateVariants f l m (some ["underscored"]) =
      {f ++ "_" ++ l, l ++ "_" ++ f, initialOf f ++ "_" ++ l,
       f ++ "_" ++ initialOf l, f ++ "_" ++ m ++ "_" ++ l} := by
  apply Finset.ext
  intro x
  simp only [generateVariants, subAlnum_eq_self hfA, subAlnum_eq_self hmA,
    subAlnum_eq_self hlA]
  rw [if_neg hf]
  simp [resolveFormats, hm, hl]

theorem gv_dashed_shape (f m l : String) (hfA : AlnumStr f) (hmA : AlnumStr m)
    (hlA : AlnumStr l) (hf : f ≠ "") (hl : l ≠ "") :
    generateVariants f l m (some ["dashed"]) =
      {f ++ "-" ++ l, l ++ "-" ++ f, initialOf f ++ "-" ++ l,
       f ++ "-" ++ initialOf l} := by
  apply Finset.ext
  intro x
  simp only [generateVariants, subAlnum_eq_self hfA, subAlnum_eq_self hmA,
    subAlnum_eq_self hlA]
  rw [if_neg hf]
  simp [resolveFormats, hl]

/-- C1 amended: for `NameParts` with non-empty (alphanumeric) first,
middle and last, the `dotted` category produces both `f.m.l` and
`f[0].m[0].l`; the `underscored` category produces `f_m_l` but NOT the
initials pair `f[0]_m[0]_l` (it exists only in `dotted` — the
asymmetry of line 81 vs line 72; stated for first names of length at
least 2, where the two middle combinations are distinct strings); and
the `dashed` category produces neither middle combination. -/
theorem separator_middle_pairs (f m l : String)
    (hfA : AlnumStr f) (hmA : AlnumStr m) (hlA : AlnumStr l)
    (hf : f ≠ "") (hm : m ≠ "") (hl : l ≠ "") :
    (f ++ "." ++ m ++ "." ++ l ∈ generateVariants f l m (some ["dotted"]) ∧
     initialOf f ++ "." ++ initialOf m ++ "." ++ l ∈
       generateVariants f l m (some ["dotted"])) ∧
    f ++ "_" ++ m ++ "_" ++ l ∈ generateVariants f l m (some ["underscored"]) ∧
    (2 ≤ f.length →
      initialOf f ++ "_" ++ initialOf m ++ "_" ++ l ∉
        generateVariants f l m (some ["underscored"])) ∧
    f ++ "-" ++ m ++ "-" ++ l ∉ generateVariants f l m (some ["dashed"]) ∧
    initialOf f ++ "-" ++ initialOf m ++ "-" ++ l ∉
      generateVariants f l m (some ["dashed"]) := by
  have hd := gv_dotted_shape f m l hfA hmA hlA hf hm hl
  have hu := gv_underscored_shape f m l hfA hmA hlA hf hm hl
  have hs := gv_dashed_shape f m l hfA hmA hlA hf hl
  have cfU : f.data.count '_' = 0 := count_eq_zero_of_alnum hfA (by decide)
  have cmU : m.data.count '_' = 0 := count_eq_zero_of_alnum hmA (by decide)
  have clU : l.data.count '_' = 0 := count_eq_zero_of_alnum hlA (by decide)
  have cifU : (initialOf f).data.count '_' = 0 :=
    count_eq_zero_of_alnum (initialOf_alnum hfA) (by decide)
  have cimU : (initialOf m).data.count '_' = 0 :=
    count_eq_zero_of_alnum (initialOf_alnum hmA) (by decide)
  have cilU : (initialOf l).data.count '_' = 0 :=
    count_eq_zero_of_alnum (initialOf_alnum hlA) (by decide)
  have cfD : f.data.count '-' = 0 := count_eq_zero_of_alnum hfA (by decide)
  have cmD : m.data.count '-' = 0 := count_eq_zero_of_alnum hmA (by decide)
  have clD : l.data.count '-' = 0 := count_eq_zero_of_alnum hlA (by decide)
  have cifD : (initialOf f).data.count '-' = 0 :=
    count_eq_zero_of_alnum (initialOf_alnum hfA) (by decide)
  have cimD : (initialOf m).data.count '-' = 0 :=
    count_eq_zero_of_alnum (initialOf_alnum hmA) (by decide)
  have cilD : (initialOf l).data.count '-' = 0 :=
    count_eq_zero_of_alnum (initialOf_alnum hlA) (by decide)
  have hu1 : ("_" : String).data.count '_' = 1 := by decide
  have hd1 : ("-" : String).data.count '-' = 1 := by decide
  refine ⟨⟨?_, ?_⟩, ?_, ?_, ?_, ?_⟩
  · rw [hd]
    simp
  · rw [hd]
    simp
  · rw [hu]
    simp
  · intro hflen hmem
    rw [hu] at hmem
    simp only [Finset.mem_insert, Finset.mem_singleton] at hmem
    rcases hmem with h | h | h | h | h
    · have e := congrArg (fun s : String => s.data.count '_') h
      simp only [count_append, cfU, cmU, clU, cifU, cimU, hu1] at e
      omega
    · have e := congrArg (fun s : String => s.data.count '_') h
      simp only [count_append, cfU, cmU, clU, cifU, cimU, hu1] at e
      omega
    · have e := congrArg (fun s : String => s.data.count '_') h
      simp only [count_append, cfU, cmU, clU, cifU, cimU, hu1] at e
      omega
    · have e := congrArg (fun s : String => s.data.count '_') h
      simp only [count_append, cfU, cmU, clU, cifU, cimU, cilU, hu1] at e
      omega
    · have e := congrArg String.length h
      simp only [length_append, length_initialOf hf, length_initialOf hm] at e
      have h1 : ("_" : String).length = 1 := rfl
      rw [h1] at e
      have hm1 : 1 ≤ m.length := one_le_length hm
      omega
  · intro hmem
    rw [hs] at hmem
    simp only [Finset.mem_insert, Finset.mem_singleton] at hmem
    rcases hmem with h | h | h | h
    all_goals {
      have e := congrArg (fun s : String => s.data.count '-') h
      simp only [count_append, cfD, cmD, clD, cifD, cimD, cilD, hd1] at e
      omega
    }
  · intro hmem
    rw [hs] at hmem
    simp only [Finset.mem_insert, Finset.mem_singleton] at hmem
    rcases hmem with h | h | h | h
    all_goals {
      have e := congrArg (fun s : String => s.data.count '-') h
      simp only [count_append, cfD, cmD, clD, cifD, cimD, cilD, hd1] at e
      omega
    }

/-- C1 amended witness: first "john", middle "mary", last "doe". -/
theorem separator_middle_pairs_witness :
    ("john" ++ "." ++ "mary" ++ "." ++ "doe" ∈
       generateVariants "john" "doe" "mary" (some ["dotted"]) ∧
     initialOf "john" ++ "." ++ initialOf "mary" ++ "." ++ "doe" ∈
       generateVariants "john" "doe" "mary" (some ["dotted"])) ∧
    "john" ++ "_" ++ "mary" ++ "_" ++ "doe" ∈
      generateVariants "john" "doe" "mary" (some ["underscored"]) ∧
    initialOf "john" ++ "_" ++ initialOf "mary" ++ "_" ++ "doe" ∉
      generateVariants "john" "doe" "mary" (some ["underscored"]) ∧
    "john" ++ "-" ++ "mary" ++ "-" ++ "doe" ∉
      generateVariants "john" "doe" "mary" (some ["dashed"]) ∧
    initialOf "john" ++ "-" ++ initialOf "mary" ++ "-" ++ "doe" ∉
      generateVariants "john" "doe" "mary" (some ["dashed"]) := by
  have h := separator_middle_pairs "john" "mary" "doe" (by decide) (by decide)
    (by decide) (by decide) (by decide) (by decide)
  exact ⟨h.1, h.2.1, h.2.2.1 (by decide), h.2.2.2⟩

/- ### Claim C8: the leet pass. -/

/-- `replaceFirstL` at the first occurrence of `c`: it preserves the
length, puts `r` at the first index holding `c`, and leaves every other
position unchanged. -/
theorem replaceFirstL_spec (l : List Char) (c r : Char) (hc : c ∈ l) :
    ∃ i, i < l.length ∧ l.get? i = some c ∧
      (∀ k, k < i → l.get? k ≠ some c) ∧
      (replaceFirstL l c r).length = l.length ∧
      (replaceFirstL l c r).get? i = some r ∧
      ∀ j, j ≠ i → (replaceFirstL l c r).get? j = l.get? j := by
  induction l with
  | nil => cases hc
  | cons x xs ih =>
    by_cases hx : x = c
    · subst hx
      refine ⟨0, by simp, by simp, by omega, ?_, ?_, ?_⟩
      · simp [replaceFirstL]
      · simp [replaceFirstL]
      · intro j hj
        cases j with
        | zero => exact absurd rfl hj
        | succ j' => simp [replaceFirstL]
    · have hc' : c ∈ xs := by
        rcases List.mem_cons.mp hc with h | h
        · exact absurd h.symm hx
        · exact h
      rcases ih hc' with ⟨i, hlen, hget, hfirst, hrlen, hrget, hoth⟩
      refine ⟨i + 1, by simpa using hlen, by simpa using hget, ?_, ?_, ?_, ?_⟩
      · intro k hk
        cases k with
        | zero =>
          simp only [List.get?]
          intro he
          exact hx (Option.some.inj he)
        | succ k' =>
          have : k' < i := by omega
          simpa using hfirst k' this
      · simp [replaceFirstL, hx, hrlen]
      · simpa [replaceFirstL, hx] using hrget
      · intro j hj
        cases j with
        | zero => simp [replaceFirstL, hx]
        | succ j' =>
          have : j' ≠ i := by omega
          simpa [replaceFirstL, hx] using hoth j' this

/-- Membership in the per-username leet fold comes from some table
entry present in the username and one of its replacements. -/
theorem mem_l33t_fold {entries : List (Char × List Char)} {u v : String}
    (h : v ∈ entries.foldr
      (fun p acc =>
        if u.data.contains p.1 then
          p.2.map (fun r => (⟨replaceFirstL u.data p.1 r⟩ : String)) ++ acc
        else acc) []) :
    ∃ p ∈ entries, p.1 ∈ u.data ∧ ∃ r ∈ p.2,
      v = ⟨replaceFirstL u.data p.1 r⟩ := by
  induction entries with
  | nil => cases h
  | cons e es ih =>
    rw [List.foldr_cons] at h
    by_cases hce : u.data.contains e.1
    · rw [if_pos hce] at h
      rcases List.mem_append.mp h with h' | h'
      · rcases List.mem_map.mp h' with ⟨r, hr, rfl⟩
        refine ⟨e, List.mem_cons_self e es, ?_, r, hr, rfl⟩
        exact (List.elem_iff).mp hce
      · rcases ih h' with ⟨p, hp, h1, h2⟩
        exact ⟨p, List.mem_cons_of_mem _ hp, h1, h2⟩
    · rw [if_neg hce] at h
      rcases ih h with ⟨p, hp, h1, h2⟩
      exact ⟨p, List.mem_cons_of_mem _ hp, h1, h2⟩

/-- No replacement character in the table equals its source letter. -/
theorem l33t_replacement_ne : ∀ p ∈ l33tMap, ∀ r ∈ p.2, r ≠ p.1 := by decide

/-- C8: every string `v` produced by the leet pass derives from some
source username `u` of the base set, has the same character length as
`u`, and differs from `u` exactly at the first occurrence of one
substitutable table letter `c`: that position holds a replacement `r`
of `c` from the table (with `r ≠ c`), and every other position is
unchanged. -/
theorem leet_single_substitution (base : Finset String) (v : String)
    (hv : v ∈ addL33tSpeak base) :
    ∃ u ∈ base, v.length = u.length ∧
      ∃ c r, (∃ cs, (c, cs) ∈ l33tMap ∧ r ∈ cs) ∧ r ≠ c ∧
        ∃ i, i < u.data.length ∧ u.data.get? i = some c ∧
          (∀ k, k < i → u.data.get? k ≠ some c) ∧
          v.data.get? i = some r ∧
          ∀ j, j ≠ i → v.data.get? j = u.data.get? j := by
  rcases Finset.mem_biUnion.mp hv with ⟨u, hu, hvl⟩
  rcases mem_l33t_fold (List.mem_toFinset.mp hvl) with ⟨p, hp, hcm, r, hr, rfl⟩
  rcases replaceFirstL_spec u.data p.1 r hcm with
    ⟨i, hlen, hget, hfirst, hrlen, hrget, hoth⟩
  refine ⟨u, hu, ?_, p.1, r, ⟨p.2, by simpa using hp, hr⟩,
    l33t_replacement_ne p hp r hr, i, hlen, hget, hfirst, hrget, hoth⟩
  show (replaceFirstL u.data p.1 r).length = u.data.length
  exact hrlen

/-- C8 witness: `"4a"` produced from the base `{"aa"}`. -/
theorem leet_single_substitution_witness :
    ∃ u ∈ ({"aa"} : Finset String), ("4a" : String).length = u.length ∧
      ∃ c r, (∃ cs, (c, cs) ∈ l33tMap ∧ r ∈ cs) ∧ r ≠ c ∧
        ∃ i, i < u.data.length ∧ u.data.get? i = some c ∧
          (∀ k, k < i → u.data.get? k ≠ some c) ∧
          ("4a" : String).data.get? i = some r ∧
          ∀ j, j ≠ i → ("4a" : String).data.get? j = u.data.get? j :=
  leet_single_substitution {"aa"} "4a" (by decide)

/- ### Claim C10: character-set invariant of the variant generator. -/

/-- C10: every string returned by `generate_variants` is non-empty and
consists only of lowercase ASCII letters, digits, and the separators
`.`, `_`, `-`. -/
theorem variants_charset (first last middle : String)
    (fmts : Option (List String)) (v : String)
    (hv : v ∈ generateVariants first last middle fmts) :
    v ≠ "" ∧ ∀ c ∈ v.data, isUserCharB c = true := by
  by_cases hf : subAlnum first = ""
  · simp only [generateVariants] at hv
    rw [if_pos hf] at hv
    cases hv
  · simp only [generateVariants] at hv
    rw [if_neg hf] at hv
    have gF : GoodStr (subAlnum first) := good_of_alnum (subAlnum_alnum first) hf
    have okF : OkChars (subAlnum first) := gF.2
    have okL : OkChars (subAlnum last) := okChars_of_alnum (subAlnum_alnum last)
    have okM : OkChars (subAlnum middle) :=
      okChars_of_alnum (subAlnum_alnum middle)
    have okIF : OkChars (initialOf (subAlnum first)) :=
      okChars_of_alnum (initialOf_alnum (subAlnum_alnum first))
    have okIL : OkChars (initialOf (subAlnum last)) :=
      okChars_of_alnum (initialOf_alnum (subAlnum_alnum last))
    have okIM : OkChars (initialOf (subAlnum middle)) :=
      okChars_of_alnum (initialOf_alnum (subAlnum_alnum middle))
    have gIF : GoodStr (initialOf (subAlnum first)) :=
      good_initialOf (subAlnum_alnum first) hf
    have okD : OkChars "." := by decide
    have okU : OkChars "_" := by decide
    have okH : OkChars "-" := by decide
    rcases Finset.mem_union.mp hv with hv | hv
    rotate_left
    · -- reversed
      obtain ⟨⟨_, hl⟩, hv⟩ := mem_ite_empty_right hv
      have gL : GoodStr (subAlnum last) := good_of_alnum (subAlnum_alnum last) hl
      simp only [Finset.mem_insert, Finset.mem_singleton] at hv
      rcases hv with rfl | rfl | rfl | rfl | rfl
      · exact gL
      · exact good_app gL okF
      · exact good_app (good_app gL okD) okF
      · exact good_app (good_app gL okU) okF
      · exact good_app (good_app gL okH) okF
    rcases Finset.mem_union.mp hv with hv | hv
    rotate_left
    · -- initial
      obtain ⟨⟨_, hl⟩, hv⟩ := mem_ite_empty_right hv
      have gL : GoodStr (subAlnum last) := good_of_alnum (subAlnum_alnum last) hl
      have gIL : GoodStr (initialOf (subAlnum last)) :=
        good_initialOf (subAlnum_alnum last) hl
      rcases Finset.mem_union.mp hv with hv | hv
      · simp only [Finset.mem_insert, Finset.mem_singleton] at hv
        rcases hv with rfl | rfl | rfl | rfl
        · exact good_app gIF okL
        · exact good_app gL okIF
        · exact good_app gF okIL
        · exact good_app gIL okF
      · obtain ⟨_, hv⟩ := mem_ite_empty_right hv
        simp only [Finset.mem_insert, Finset.mem_singleton] at hv
        rcases hv with rfl | rfl
        · exact good_app (good_app gIF okIM) okL
        · exact good_app (good_app gF okIM) okIL
    rcases Finset.mem_union.mp hv with hv | hv
    rotate_left
    · -- dashed
      obtain ⟨⟨_, hl⟩, hv⟩ := mem_ite_empty_right hv
      have gL : GoodStr (subAlnum last) := good_of_alnum (subAlnum_alnum last) hl
      simp only [Finset.mem_insert, Finset.mem_singleton] at hv
      rcases hv with rfl | rfl | rfl | rfl
      · exact good_app (good_app gF okH) okL
      · exact good_app (good_app gL okH) okF
      · exact good_app (good_app gIF okH) okL
      · exact good_app (good_app gF okH) okIL
    rcases Finset.mem_union.mp hv with hv | hv
    rotate_left
    · -- underscored
      obtain ⟨⟨_, hl⟩, hv⟩ := mem_ite_empty_right hv
      have gL : GoodStr (subAlnum last) := good_of_alnum (subAlnum_alnum last) hl
      rcases Finset.mem_union.mp hv with hv | hv
      · simp only [Finset.mem_insert, Finset.mem_singleton] at hv
        rcases hv with rfl | rfl | rfl | rfl
        · exact good_app (good_app gF okU) okL
        · exact good_app (good_app gL okU) okF
        · exact good_app (good_app gIF okU) okL
        · exact good_app (good_app gF okU) okIL
      · obtain ⟨_, hv⟩ := mem_ite_empty_right hv
        simp only [Finset.mem_singleton] at hv
        subst hv
        exact good_app (good_app (good_app (good_app gF okU) okM) okU) okL
    rcases Finset.mem_union.mp hv with hv | hv
    · -- standard
      obtain ⟨_, hv⟩ := mem_ite_empty_right hv
      rcases Finset.mem_union.mp hv with hv | hv
      · rcases Finset.mem_union.mp hv with hv | hv
        · rw [Finset.mem_singleton] at hv
          subst hv
          exact gF
        · obtain ⟨hl, hv⟩ := mem_ite_empty_right hv
          have gL : GoodStr (subAlnum last) :=
            good_of_alnum (subAlnum_alnum last) hl
          simp only [Finset.mem_insert, Finset.mem_singleton] at hv
          rcases hv with rfl | rfl
          · exact good_app gF okL
          · exact good_app gL okF
      · obtain ⟨_, hv⟩ := mem_ite_empty_right hv
        simp only [Finset.mem_insert, Finset.mem_singleton] at hv
        rcases hv with rfl | rfl
        · exact good_app gF okM
        · exact good_app (good_app gF okM) okL
    · -- dotted
      obtain ⟨⟨_, hl⟩, hv⟩ := mem_ite_empty_right hv
      have gL : GoodStr (subAlnum last) := good_of_alnum (subAlnum_alnum last) hl
      rcases Finset.mem_union.mp hv with hv | hv
      · simp only [Finset.mem_insert, Finset.mem_singleton] at hv
        rcases hv with rfl | rfl | rfl | rfl
        · exact good_app (good_app gF okD) okL
        · exact good_app (good_app gL okD) okF
        · exact good_app (good_app gIF okD) okL
        · exact good_app (good_app gF okD) okIL
      · obtain ⟨_, hv⟩ := mem_ite_empty_right hv
        simp only [Finset.mem_insert, Finset.mem_singleton] at hv
        rcases hv with rfl | rfl
        · exact good_app (good_app (good_app (good_app gF okD) okM) okD) okL
        · exact good_app (good_app (good_app (good_app gIF okD) okIM) okD) okL

/-- C10 witness: the variant `"j.doe"` of "john doe" under the default
selection. -/
theorem variants_charset_witness :
    ("j.doe" : String) ≠ "" ∧ ∀ c ∈ ("j.doe" : String).data, isUserCharB c = true :=
  variants_charset "john" "doe" "" none "j.doe" (by decide)

end UserGen
